import Mathlib

/-!
Shallow embedding of the MapReduce coordination core (package `mr`):
the master's task lifecycle, phase state machine and timeout reclaim,
and the worker's map/reduce execution pipeline.

Modelling conventions:
* the mutex-guarded heap state of the master is a `Master` value and every
  RPC handler is a state-passing function;
* `time.Time` values are abstract clocks in `Nat`, measured in seconds, and
  every operation that reads the clock takes it as an explicit argument;
* the buffered channel `TaskQueue` is a FIFO list (head = front); its
  capacity hint is not modelled;
* the Go map `TaskMeta` is an association list keyed by task id;
* a run-time fault in the source (nil map entry dereference, out-of-range
  slice index) is modelled by returning `none`;
* the asynchronous result processing spawned by `TaskCompleted` is modelled
  as running atomically right after the status update, which matches the
  behaviour when no other request interleaves;
* the worker's disk writes are modelled by the final (name, contents) pairs
  that the write-temporary-then-rename pattern makes visible, and reads go
  through an abstract file system `String → List KeyValue`.
-/

namespace MR

/-- Per-task dispatch status tracked by the master. -/
inductive MasterTaskState where
  | Idle
  | InProgress
  | Completed
deriving DecidableEq, Repr

/-- Phase tag, also used as the kind tag carried by every task. -/
inductive State where
  | Map
  | Reduce
  | Exit
  | Wait
deriving DecidableEq, Repr

/-- The unit of work exchanged between master and worker. -/
structure Task where
  Id : Nat
  Input : String
  Output : String
  TaskState : State
  NReducer : Nat
  InterMediates : List String
deriving DecidableEq, Repr

/-- The master-private bookkeeping record for one task. -/
structure MasterTask where
  TaskStatus : MasterTaskState
  StartTime : Nat
  TaskPtr : Task
deriving DecidableEq, Repr

/-- The whole mutex-guarded master state. -/
structure Master where
  TaskQueue : List Task
  TaskMeta : List (Nat × MasterTask)
  Phase : State
  NReduce : Nat
  InputFiles : List String
  InterMediates : List (List String)
deriving DecidableEq, Repr

/-- Lookup in the `TaskMeta` map; `none` is a missing key, whose field
access panics in the source. -/
def lookupMeta (meta : List (Nat × MasterTask)) (id : Nat) : Option MasterTask :=
  (meta.find? (fun p => p.1 == id)).map Prod.snd

/-- In-place field update of one `TaskMeta` entry. -/
def updateMeta (meta : List (Nat × MasterTask)) (id : Nat)
    (f : MasterTask → MasterTask) : List (Nat × MasterTask) :=
  meta.map (fun p => if p.1 == id then (p.1, f p.2) else p)

/-- Build one Map task per input file and register it (queue and record). -/
def createMapTask (m : Master) : Master :=
  let tasks := m.InputFiles.enum.map (fun p =>
    ({ Id := p.1, Input := p.2, Output := "", TaskState := State.Map,
       NReducer := m.NReduce, InterMediates := [] } : Task))
  { m with
    TaskQueue := m.TaskQueue ++ tasks,
    TaskMeta := m.TaskMeta ++ tasks.map (fun t =>
      (t.Id, { TaskStatus := MasterTaskState.Idle, StartTime := 0, TaskPtr := t })) }

/-- Refresh `TaskMeta` and enqueue one Reduce task per intermediate bucket,
each carrying that bucket's accumulated file list. -/
def createReduceTask (m : Master) : Master :=
  let tasks := m.InterMediates.enum.map (fun p =>
    ({ Id := p.1, Input := "", Output := "", TaskState := State.Reduce,
       NReducer := m.NReduce, InterMediates := p.2 } : Task))
  { m with
    TaskMeta := tasks.map (fun t =>
      (t.Id, { TaskStatus := MasterTaskState.Idle, StartTime := 0, TaskPtr := t })),
    TaskQueue := m.TaskQueue ++ tasks }

/-- Master constructor: initial state plus the Map task set.  The RPC server
and the background sweeper are started by the caller and are modelled as the
separate step functions below. -/
def MakeMaster (files : List String) (nReduce : Nat) : Master :=
  createMapTask
    { TaskQueue := [], TaskMeta := [], Phase := State.Map, NReduce := nReduce,
      InputFiles := files, InterMediates := List.replicate nReduce [] }

/-- Staleness threshold of the timeout reclaim, in seconds. -/
def staleThreshold : Nat := 10

/-- A record is reclaimable when it has been in progress longer than the
staleness threshold. -/
def isStale (now : Nat) (r : MasterTask) : Bool :=
  decide (r.TaskStatus = MasterTaskState.InProgress) &&
    decide (staleThreshold < now - r.StartTime)

/-- One iteration of the background timeout sweep at clock `now`: every
stale in-progress record is re-queued and reset to `Idle`.  The requeue
order follows the record list; the source iterates a Go map, whose order is
unspecified. -/
def catchTimeOut (m : Master) (now : Nat) : Master :=
  if m.Phase = State.Exit then m
  else
    { m with
      TaskQueue := m.TaskQueue ++
        ((m.TaskMeta.filter (fun p => isStale now p.2)).map (fun p => p.2.TaskPtr)),
      TaskMeta := m.TaskMeta.map (fun p =>
        if isStale now p.2 then (p.1, { p.2 with TaskStatus := MasterTaskState.Idle })
        else p) }

/-- The sentinel task handed out when the job is finished. -/
def exitTask : Task :=
  { Id := 0, Input := "", Output := "", TaskState := State.Exit,
    NReducer := 0, InterMediates := [] }

/-- The sentinel task telling the worker to back off and retry. -/
def waitTask : Task :=
  { Id := 0, Input := "", Output := "", TaskState := State.Wait,
    NReducer := 0, InterMediates := [] }

/-- The `AssignTask` RPC handler at clock `now`: pop a pending task and mark
it in progress, or hand out a sentinel.  `none` models the source faulting
on a popped task whose id has no record. -/
def AssignTask (m : Master) (now : Nat) : Option (Master × Task) :=
  match m.TaskQueue with
  | t :: rest =>
    match lookupMeta m.TaskMeta t.Id with
    | none => none
    | some _ =>
      some ({ m with
              TaskQueue := rest,
              TaskMeta := updateMeta m.TaskMeta t.Id (fun r =>
                { r with TaskStatus := MasterTaskState.InProgress, StartTime := now }) },
            t)
  | [] =>
    if m.Phase = State.Exit then some (m, exitTask) else some (m, waitTask)

/-- Mark the record of the reported task `Completed`. -/
def completeMark (m : Master) (task : Task) : Master :=
  { m with TaskMeta := updateMeta m.TaskMeta task.Id (fun r =>
      { r with TaskStatus := MasterTaskState.Completed }) }

/-- All records of the current phase are completed. -/
def allTaskDone (m : Master) : Bool :=
  m.TaskMeta.all (fun p => p.2.TaskStatus == MasterTaskState.Completed)

/-- Append the reported intermediate files of one Map task into the matrix,
bucket by bucket; `none` models the out-of-range slice fault when the report
carries more files than there are buckets. -/
def appendInter : List (List String) → List String → Option (List (List String))
  | buckets, [] => some buckets
  | [], _ :: _ => none
  | b :: bs, f :: fs => (appendInter bs fs).map (fun r => (b ++ [f]) :: r)

/-- Merge an accepted completion report and fire the phase transition when
the whole task set of the phase is completed. -/
def processTaskResult (m : Master) (task : Task) : Option Master :=
  match task.TaskState with
  | State.Map =>
    match appendInter m.InterMediates task.InterMediates with
    | none => none
    | some inter =>
      if allTaskDone { m with InterMediates := inter } then
        some { createReduceTask { m with InterMediates := inter } with
               Phase := State.Reduce }
      else some { m with InterMediates := inter }
  | State.Reduce =>
    if allTaskDone m then some { m with Phase := State.Exit } else some m
  | _ => some m

/-- The `TaskCompleted` RPC handler: drop stale or duplicate reports, else
mark the record completed and process the result. -/
def TaskCompleted (m : Master) (task : Task) : Option Master :=
  if task.TaskState ≠ m.Phase then some m
  else
    match lookupMeta m.TaskMeta task.Id with
    | none => none
    | some r =>
      if r.TaskStatus = MasterTaskState.Completed then some m
      else processTaskResult (completeMark m task) task

/-- The `Done` poll. -/
def Done (m : Master) : Bool :=
  m.Phase == State.Exit

/-- One observable step of the master: an `AssignTask` call, a
`TaskCompleted` call, or one sweep of the timeout loop. -/
inductive MStep : Master → Master → Prop where
  | assign (m : Master) (now : Nat) (m' : Master) (t : Task) :
      AssignTask m now = some (m', t) → MStep m m'
  | complete (m : Master) (task : Task) (m' : Master) :
      TaskCompleted m task = some m' → MStep m m'
  | sweep (m : Master) (now : Nat) : MStep m (catchTimeOut m now)

/-- A key/value pair produced by the user map function. -/
structure KeyValue where
  Key : String
  Value : String
deriving DecidableEq, Repr

/-- 32-bit FNV-1a hash of the UTF-8 bytes of a string. -/
def fnv32a (s : String) : Nat :=
  s.toUTF8.data.toList.foldl
    (fun h b => ((h ^^^ b.toNat) * 16777619) % 4294967296) 2166136261

/-- Key hash used for partitioning: FNV-1a masked to a nonnegative int. -/
def ihash (key : String) : Nat :=
  fnv32a key &&& 0x7fffffff

/-- The bucket a key is partitioned into; the source inlines this as
`ihash(key) % NReducer` inside `mapper`.  `NReducer = 0` faults in the
source and is outside every claim. -/
def slot (key : String) (nReducer : Nat) : Nat :=
  ihash key % nReducer

/-- One step of the partitioning loop of `mapper`: append the pair to the
bucket its key hashes to. -/
def addToBuffer (nReducer : Nat) (buf : List (List KeyValue)) (kv : KeyValue) :
    List (List KeyValue) :=
  buf.set (slot kv.Key nReducer) (buf.getD (slot kv.Key nReducer) [] ++ [kv])

/-- The partitioning loop of `mapper`: distribute every pair over
`nReducer` buckets. -/
def partitionBuffer (pairs : List KeyValue) (nReducer : Nat) : List (List KeyValue) :=
  pairs.foldl (addToBuffer nReducer) (List.replicate nReducer [])

/-- `filepath.Join` restricted to the shapes the worker uses. -/
def pathJoin (dir name : String) : String :=
  if dir = "" then name else dir ++ "/" ++ name

/-- A file made visible by a completed write-temporary-then-rename. -/
structure FileWrite where
  name : String
  contents : List KeyValue
deriving DecidableEq, Repr

/-- Write one bucket of a Map task to local disk; returns the visible file
and the path reported back.  The temporary file and the rename are modelled
by their final effect. -/
def writeToLocalFile (dir : String) (MapId reduceId : Nat) (kvs : List KeyValue) :
    FileWrite × String :=
  let outputName := "mr-" ++ toString MapId ++ "-" ++ toString reduceId
  (⟨outputName, kvs⟩, pathJoin dir outputName)

/-- The worker's Map execution: run the user map function on the input
file's contents, partition the pairs, write one file per bucket, and return
the visible writes together with the task as reported to `TaskCompleted`
(its `InterMediates` holding the collected file paths). -/
def mapper (task : Task) (content : String)
    (mapf : String → String → List KeyValue) (dir : String) :
    List FileWrite × Task :=
  let intermediates := mapf task.Input content
  let buffer := partitionBuffer intermediates task.NReducer
  let results := (List.range task.NReducer).map
    (fun i => writeToLocalFile dir task.Id i (buffer.getD i []))
  (results.map Prod.fst, { task with InterMediates := results.map Prod.snd })

/-- Read and concatenate the intermediate files, through an abstract
decoded view `fs` of the local disk. -/
def readFromLocalFile (fs : String → List KeyValue) (files : List String) :
    List KeyValue :=
  (files.map fs).flatten

/-- Key comparison used by the grouping loop of `reducer` (adjacent-key
equality chains into equality with the first key of the run, since string
equality is transitive). -/
def keyEq (k : String) (y : KeyValue) : Bool :=
  y.Key == k

/-- The grouping loop of `reducer`: one output line per run of consecutive
equal keys, each obtained by one call of the user reduce function on the
run's values. -/
def reduceGroups (reducef : String → List String → String) :
    List KeyValue → List String
  | [] => []
  | kv :: rest =>
    (kv.Key ++ " " ++
       reducef kv.Key
         (kv.Value :: (rest.takeWhile (keyEq kv.Key)).map KeyValue.Value)
       ++ "\n")
    :: reduceGroups reducef (rest.dropWhile (keyEq kv.Key))
termination_by l => l.length
decreasing_by
  simp only [List.length_cons]
  exact Nat.lt_succ_of_le (List.dropWhile_sublist _).length_le

/-- The keys of the runs of consecutive equal keys, in order. -/
def runKeys : List KeyValue → List String
  | [] => []
  | kv :: rest => kv.Key :: runKeys (rest.dropWhile (keyEq kv.Key))
termination_by l => l.length
decreasing_by
  simp only [List.length_cons]
  exact Nat.lt_succ_of_le (List.dropWhile_sublist _).length_le

/-- Comparison used by `sort.Sort(ByKey(...))`. -/
def keyLE (a b : KeyValue) : Prop :=
  a.Key ≤ b.Key

instance : DecidableRel keyLE := fun a b =>
  inferInstanceAs (Decidable (a.Key ≤ b.Key))

instance : IsTotal KeyValue keyLE :=
  ⟨fun a b => le_total a.Key b.Key⟩

instance : IsTrans KeyValue keyLE :=
  ⟨fun _ _ _ hab hbc => le_trans hab hbc⟩

/-- The worker's Reduce execution: concatenate the intermediate files, sort
by key, group consecutive equal keys, apply the user reduce function once
per group, and return the visible output file (name and textual contents)
together with the task as reported to `TaskCompleted`.  The source sorts
with an arbitrary comparison sort; it is modelled by insertion sort, a
sorted permutation. -/
def reducer (task : Task) (fs : String → List KeyValue)
    (reducef : String → List String → String) :
    (String × String) × Task :=
  let intermediate := List.insertionSort keyLE (readFromLocalFile fs task.InterMediates)
  let lines := reduceGroups reducef intermediate
  let oname := "mr-out-" ++ toString task.Id
  ((oname, String.join lines), { task with Output := oname })

/-! ## Claims about the master -/

/-- Claim C1: a `TaskCompleted` call whose task phase tag differs from the
current phase, or whose record is already `Completed`, is a no-op: the
master state (record statuses, pending queue, phase, intermediate matrix)
is returned unchanged, so a duplicate report of an already-completed Map
task never appends its file paths a second time. -/
theorem C1_taskCompleted_noop (m : Master) (task : Task)
    (h : task.TaskState ≠ m.Phase ∨
      ∃ r, lookupMeta m.TaskMeta task.Id = some r ∧
        r.TaskStatus = MasterTaskState.Completed) :
    TaskCompleted m task = some m := by
  unfold TaskCompleted
  rcases h with h | ⟨r, hr, hc⟩
  · rw [if_pos h]
  · by_cases hp : task.TaskState = m.Phase
    · rw [if_neg (not_not_intro hp), hr]
      simp [hc]
    · rw [if_pos hp]

theorem C1_witness :
    TaskCompleted (MakeMaster ["a"] 1)
      { Id := 0, Input := "", Output := "", TaskState := State.Reduce,
        NReducer := 1, InterMediates := [] } = some (MakeMaster ["a"] 1) :=
  C1_taskCompleted_noop _ _ (Or.inl (by decide))

/-- Characterization of how one master step may move the phase: either the
phase is untouched, or every record of the finished phase (the reporter's
included) is completed and the transition fires, Map to Reduce rebuilding
the task set from the intermediate matrix, Reduce to Exit. -/
def PhaseStepSpec (m m' : Master) : Prop :=
  m'.Phase = m.Phase ∨
  (m.Phase = State.Map ∧ m'.Phase = State.Reduce ∧
    ∃ task inter,
      appendInter m.InterMediates task.InterMediates = some inter ∧
      allTaskDone { completeMark m task with InterMediates := inter } = true ∧
      m' = { createReduceTask { completeMark m task with InterMediates := inter } with
             Phase := State.Reduce }) ∨
  (m.Phase = State.Reduce ∧ m'.Phase = State.Exit ∧
    ∃ task, allTaskDone (completeMark m task) = true ∧
      m' = { completeMark m task with Phase := State.Exit })

lemma assign_phase (m : Master) (now : Nat) (m' : Master) (t : Task)
    (h : AssignTask m now = some (m', t)) : m'.Phase = m.Phase := by
  unfold AssignTask at h
  split at h
  · split at h
    · exact absurd h (by simp)
    · simp only [Option.some.injEq, Prod.mk.injEq] at h
      rw [← h.1]
  · split at h <;>
      (simp only [Option.some.injEq, Prod.mk.injEq] at h; rw [← h.1])

lemma sweep_phase (m : Master) (now : Nat) : (catchTimeOut m now).Phase = m.Phase := by
  unfold catchTimeOut
  split <;> rfl

lemma complete_spec (m : Master) (task : Task) (m' : Master)
    (h : TaskCompleted m task = some m') : PhaseStepSpec m m' := by
  unfold TaskCompleted at h
  split at h
  · left
    simp only [Option.some.injEq] at h
    rw [← h]
  · rename_i hp
    rw [not_not] at hp
    split at h
    · exact absurd h (by simp)
    · split at h
      · left
        simp only [Option.some.injEq] at h
        rw [← h]
      · unfold processTaskResult at h
        split at h
        · rename_i hmap
          split at h
          · exact absurd h (by simp)
          · rename_i inter happ
            split at h
            · rename_i hall
              right; left
              have hm := Option.some.inj h
              refine ⟨by rw [← hp, hmap], by rw [← hm], task, inter, happ, hall, hm.symm⟩
            · left
              simp only [Option.some.injEq] at h
              rw [← h]
              rfl
        · rename_i hred
          split at h
          · rename_i hall
            have hm := Option.some.inj h
            right; right
            exact ⟨by rw [← hp, hred], by rw [← hm], task, hall, hm.symm⟩
          · left
            simp only [Option.some.injEq] at h
            rw [← h]
            rfl
        · left
          simp only [Option.some.injEq] at h
          rw [← h]
          rfl

lemma phase_step (m m' : Master) : MStep m m' → PhaseStepSpec m m'
  | MStep.assign _ now _ t heq => Or.inl (assign_phase m now m' t heq)
  | MStep.complete _ task _ heq => complete_spec m task m' heq
  | MStep.sweep _ now => Or.inl (sweep_phase m now)

lemma phase_step_cases (m m' : Master) (h : MStep m m') :
    m'.Phase = m.Phase ∨ (m.Phase = State.Map ∧ m'.Phase = State.Reduce) ∨
      (m.Phase = State.Reduce ∧ m'.Phase = State.Exit) := by
  rcases phase_step m m' h with h1 | ⟨h1, h2, _⟩ | ⟨h1, h2, _⟩
  · exact Or.inl h1
  · exact Or.inr (Or.inl ⟨h1, h2⟩)
  · exact Or.inr (Or.inr ⟨h1, h2⟩)

/-- Number of adjacent `a`-to-`b` phase moves along a list of states. -/
def countTrans (a b : State) (l : List Master) : Nat :=
  ((l.zip l.tail).filter (fun p => p.1.Phase == a && p.2.Phase == b)).length

lemma countTrans_nil (a b : State) : countTrans a b [] = 0 := rfl

lemma countTrans_single (a b : State) (m : Master) : countTrans a b [m] = 0 := rfl

lemma countTrans_cons (a b : State) (m1 m2 : Master) (ms : List Master) :
    countTrans a b (m1 :: m2 :: ms) =
      (if m1.Phase == a && m2.Phase == b then 1 else 0) + countTrans a b (m2 :: ms) := by
  simp only [countTrans, List.tail_cons, List.zip_cons_cons, List.filter_cons]
  split <;> simp [Nat.add_comm]

lemma notMap_stays (m m' : Master) (h : MStep m m') (hm : m.Phase ≠ State.Map) :
    m'.Phase ≠ State.Map := by
  rcases phase_step_cases m m' h with h1 | ⟨h1, _⟩ | ⟨_, h2⟩
  · rw [h1]; exact hm
  · exact absurd h1 hm
  · rw [h2]; exact fun hc => State.noConfusion hc

lemma exit_stays (m m' : Master) (h : MStep m m') (he : m.Phase = State.Exit) :
    m'.Phase = State.Exit := by
  rcases phase_step_cases m m' h with h1 | ⟨h1, _⟩ | ⟨h1, _⟩
  · rw [h1, he]
  · rw [he] at h1; exact State.noConfusion h1
  · rw [he] at h1; exact State.noConfusion h1

lemma countTrans_MR_zero (m : Master) (ms : List Master)
    (hch : List.Chain MStep m ms) (hm : m.Phase ≠ State.Map) :
    countTrans State.Map State.Reduce (m :: ms) = 0 := by
  induction ms generalizing m with
  | nil => rfl
  | cons m2 ms ih =>
    cases hch with
    | cons hstep htail =>
      rw [countTrans_cons]
      have hpair : (m.Phase == State.Map && m2.Phase == State.Reduce) = false := by
        have : (m.Phase == State.Map) = false := beq_false_of_ne hm
        rw [this, Bool.false_and]
      rw [hpair, if_neg (by simp), ih m2 htail (notMap_stays m m2 hstep hm)]

lemma countTrans_RE_zero (m : Master) (ms : List Master)
    (hch : List.Chain MStep m ms) (he : m.Phase = State.Exit) :
    countTrans State.Reduce State.Exit (m :: ms) = 0 := by
  induction ms generalizing m with
  | nil => rfl
  | cons m2 ms ih =>
    cases hch with
    | cons hstep htail =>
      rw [countTrans_cons]
      have hpair : (m.Phase == State.Reduce && m2.Phase == State.Exit) = false := by
        have : (m.Phase == State.Reduce) = false := by
          rw [he]; rfl
        rw [this, Bool.false_and]
      rw [hpair, if_neg (by simp), ih m2 htail (exit_stays m m2 hstep he)]

lemma countTrans_MR_le_one (m : Master) (ms : List Master)
    (hch : List.Chain MStep m ms) :
    countTrans State.Map State.Reduce (m :: ms) ≤ 1 := by
  induction ms generalizing m with
  | nil => exact (countTrans_single _ _ _) ▸ Nat.zero_le 1
  | cons m2 ms ih =>
    cases hch with
    | cons hstep htail =>
      rw [countTrans_cons]
      by_cases hmr : (m.Phase == State.Map && m2.Phase == State.Reduce) = true
      · have h2 : m2.Phase ≠ State.Map := by
          have := (Bool.and_eq_true _ _).mp hmr
          have h2r : m2.Phase = State.Reduce := eq_of_beq this.2
          rw [h2r]; exact fun hc => State.noConfusion hc
        rw [if_pos hmr, countTrans_MR_zero m2 ms htail h2]
      · rw [if_neg hmr, Nat.zero_add]
        exact ih m2 htail

lemma countTrans_RE_le_one (m : Master) (ms : List Master)
    (hch : List.Chain MStep m ms) :
    countTrans State.Reduce State.Exit (m :: ms) ≤ 1 := by
  induction ms generalizing m with
  | nil => exact (countTrans_single _ _ _) ▸ Nat.zero_le 1
  | cons m2 ms ih =>
    cases hch with
    | cons hstep htail =>
      rw [countTrans_cons]
      by_cases hre : (m.Phase == State.Reduce && m2.Phase == State.Exit) = true
      · have h2 : m2.Phase = State.Exit :=
          eq_of_beq ((Bool.and_eq_true _ _).mp hre).2
        rw [if_pos hre, countTrans_RE_zero m2 ms htail h2]
      · rw [if_neg hre, Nat.zero_add]
        exact ih m2 htail

/-- Claim C2: along any step of the master the phase moves only as the
state machine Map to Reduce to Exit allows: it advances exactly when every
record of the current phase (the reporter's included) is completed, the Map
to Reduce transition rebuilds the record set and queue through
`createReduceTask` (one Reduce task per intermediate-matrix bucket, each
carrying that bucket's file list), Exit is terminal; and along any trace of
steps each of the two transitions fires at most once. -/
theorem C2_phase_machine (m m' : Master) (ms : List Master)
    (hstep : MStep m m') (hch : List.Chain MStep m ms) :
    PhaseStepSpec m m' ∧
      countTrans State.Map State.Reduce (m :: ms) ≤ 1 ∧
      countTrans State.Reduce State.Exit (m :: ms) ≤ 1 :=
  ⟨phase_step m m' hstep, countTrans_MR_le_one m ms hch,
    countTrans_RE_le_one m ms hch⟩

theorem C2_witness :
    PhaseStepSpec (MakeMaster ["a"] 1) (MakeMaster ["a"] 1) ∧
      countTrans State.Map State.Reduce [MakeMaster ["a"] 1] ≤ 1 ∧
      countTrans State.Reduce State.Exit [MakeMaster ["a"] 1] ≤ 1 :=
  C2_phase_machine (MakeMaster ["a"] 1) (MakeMaster ["a"] 1) []
    (MStep.complete (MakeMaster ["a"] 1)
      { Id := 0, Input := "", Output := "", TaskState := State.Reduce,
        NReducer := 1, InterMediates := [] }
      (MakeMaster ["a"] 1) (by decide))
    List.Chain.nil

/-- Claim C2, counterexample: the Map-to-Reduce transition does not replace
the pending queue.  On a reachable trace with inputs `["a", "b"]` and one
reducer (both Map tasks dispatched at clock 0, reclaimed by the sweep at
clock 20, then both reported complete), the completion step that moves the
phase from Map to Reduce leaves a queue of three tasks with ids 0, 1, 0:
the two stale reclaimed Map tasks, followed by the single appended Reduce
task, rather than one Reduce task per bucket only. -/
theorem C2_queue_not_replaced :
    (do
      let p1 ← AssignTask (MakeMaster ["a", "b"] 1) 0
      let p2 ← AssignTask p1.1 0
      let m4 ← TaskCompleted (catchTimeOut p2.1 20)
        { p1.2 with InterMediates := ["y0"] }
      let m5 ← TaskCompleted m4 { p2.2 with InterMediates := ["y1"] }
      pure (m4.Phase, m5.Phase, m5.NReduce, m5.TaskQueue.map Task.Id))
    = some (State.Map, State.Reduce, 1, [0, 1, 0]) := by
  rfl

/-- Claim C3, counterexample: in a coordinator state whose pending queue
holds a task with no record in the current record map, `AssignTask` does
not follow the three-way case split but faults on the record lookup (the
source dereferences a nil map entry).  Such states are reachable, see the
trace of claim C9. -/
theorem C3_counterexample :
    AssignTask
      { TaskQueue := [{ Id := 5, Input := "", Output := "", TaskState := State.Map,
                        NReducer := 1, InterMediates := [] }],
        TaskMeta := [], Phase := State.Map, NReduce := 1, InputFiles := [],
        InterMediates := [[]] } 0 = none := by
  rfl

/-- Claim C3, amended: `AssignTask` is a three-way case split, with the
first branch guarded by the popped task having a record: if the pending
queue is non-empty and its head task's id has a record, pop it, mark the
record `InProgress` with the dispatch clock, and return the task; else if
the queue is empty and the phase is Exit, return the sentinel Exit task;
else if the queue is empty, return the sentinel Wait task. -/
theorem C3_assign_cases (m : Master) (now : Nat) :
    (∀ t rest r, m.TaskQueue = t :: rest →
      lookupMeta m.TaskMeta t.Id = some r →
      AssignTask m now =
        some ({ m with
                TaskQueue := rest,
                TaskMeta := updateMeta m.TaskMeta t.Id (fun x =>
                  { x with TaskStatus := MasterTaskState.InProgress,
                           StartTime := now }) },
              t)) ∧
    (m.TaskQueue = [] → m.Phase = State.Exit →
      AssignTask m now = some (m, exitTask)) ∧
    (m.TaskQueue = [] → m.Phase ≠ State.Exit →
      AssignTask m now = some (m, waitTask)) := by
  refine ⟨?_, ?_, ?_⟩
  · intro t rest r hq hr
    simp only [AssignTask, hq, hr]
  · intro hq he
    simp only [AssignTask, hq, he, if_pos]
  · intro hq hne
    simp only [AssignTask, hq]
    rw [if_neg hne]

theorem C3_witness :
    AssignTask (MakeMaster [] 0) 7 = some (MakeMaster [] 0, waitTask) :=
  (C3_assign_cases (MakeMaster [] 0) 7).2.2 rfl (by decide)

/-- Claim C4 fails on the code: trace with inputs `["a", "b"]` and one
reducer.  Map task 0 is dispatched at clock 0, reclaimed by the sweep at
clock 20, and its original worker then reports completion, making record 0
`Completed`; the stale queue copy of task 0 is still pending, and the
`AssignTask` that pops it moves the `Completed` record back to
`InProgress`, so `Completed` is not terminal. -/
theorem C4_completed_reverted :
    (do
      let p1 ← AssignTask (MakeMaster ["a", "b"] 1) 0
      let m4 ← TaskCompleted (catchTimeOut p1.1 20)
        { p1.2 with InterMediates := ["x0"] }
      let p2 ← AssignTask m4 25
      let p3 ← AssignTask p2.1 25
      pure ((lookupMeta m4.TaskMeta 0).map MasterTask.TaskStatus,
            p3.2.Id,
            (lookupMeta p3.1.TaskMeta 0).map MasterTask.TaskStatus))
    = some (some MasterTaskState.Completed, 0, some MasterTaskState.InProgress) := by
  decide

/-- Claim C9 fails on the code: trace with inputs `["a", "b"]` and one
reducer.  Both Map tasks are dispatched, reclaimed by the sweep (re-entering
the queue), then both original workers report completion; the Map-to-Reduce
transition replaces the record map with the single Reduce record 0 while
the two stale Map tasks still sit in the queue.  After popping stale task
0, the next `AssignTask` pops stale task 1, whose id has no record in the
Reduce record map, and faults (nil map entry dereference in the source). -/
theorem C9_missing_record :
    (do
      let p1 ← AssignTask (MakeMaster ["a", "b"] 1) 0
      let p2 ← AssignTask p1.1 0
      let m4 ← TaskCompleted (catchTimeOut p2.1 20)
        { p1.2 with InterMediates := ["x0"] }
      let m5 ← TaskCompleted m4 { p2.2 with InterMediates := ["x1"] }
      let p6 ← AssignTask m5 30
      pure (m5.Phase,
            p6.1.TaskQueue.head?.map Task.Id,
            lookupMeta p6.1.TaskMeta 1,
            AssignTask p6.1 30))
    = some (State.Reduce, some 1, none, none) := by
  rfl

lemma appendInter_length (fs : List String) :
    ∀ (bs r : List (List String)), appendInter bs fs = some r → r.length = bs.length := by
  induction fs with
  | nil =>
    intro bs r h
    simp only [appendInter, Option.some.injEq] at h
    rw [← h]
  | cons f fs ih =>
    intro bs r h
    cases bs with
    | nil => simp [appendInter] at h
    | cons b bs2 =>
      simp only [appendInter] at h
      cases hr : appendInter bs2 fs with
      | none => rw [hr] at h; simp at h
      | some r2 =>
        rw [hr] at h
        simp only [Option.map_some', Option.some.injEq] at h
        rw [← h]
        simp [ih bs2 r2 hr]

lemma assign_fields (m : Master) (now : Nat) (m' : Master) (t : Task)
    (h : AssignTask m now = some (m', t)) :
    m'.NReduce = m.NReduce ∧ m'.InterMediates = m.InterMediates := by
  unfold AssignTask at h
  split at h
  · split at h
    · exact absurd h (by simp)
    · simp only [Option.some.injEq, Prod.mk.injEq] at h
      rw [← h.1]
      exact ⟨rfl, rfl⟩
  · split at h <;>
      (simp only [Option.some.injEq, Prod.mk.injEq] at h; rw [← h.1]; exact ⟨rfl, rfl⟩)

lemma complete_fields (m : Master) (task : Task) (m' : Master)
    (h : TaskCompleted m task = some m') :
    m'.NReduce = m.NReduce ∧
      (m.InterMediates.length = m.NReduce → m'.InterMediates.length = m'.NReduce) := by
  unfold TaskCompleted at h
  split at h
  · simp only [Option.some.injEq] at h
    rw [← h]
    exact ⟨rfl, fun hl => hl⟩
  · split at h
    · exact absurd h (by simp)
    · split at h
      · simp only [Option.some.injEq] at h
        rw [← h]
        exact ⟨rfl, fun hl => hl⟩
      · unfold processTaskResult at h
        split at h
        · split at h
          · exact absurd h (by simp)
          · rename_i inter happ
            have hl := appendInter_length task.InterMediates
              (completeMark m task).InterMediates inter happ
            split at h <;>
              (simp only [Option.some.injEq] at h; rw [← h];
               exact ⟨rfl, fun hinv => by
                 simpa using hl.trans (by simpa using hinv)⟩)
        · split at h <;>
            (simp only [Option.some.injEq] at h; rw [← h]; exact ⟨rfl, fun hl => hl⟩)
        · simp only [Option.some.injEq] at h
          rw [← h]
          exact ⟨rfl, fun hl => hl⟩

lemma sweep_fields (m : Master) (now : Nat) :
    (catchTimeOut m now).NReduce = m.NReduce ∧
      (catchTimeOut m now).InterMediates = m.InterMediates := by
  unfold catchTimeOut
  split
  · exact ⟨rfl, rfl⟩
  · exact ⟨rfl, rfl⟩

lemma step_preserves_matrix (m1 m2 : Master) (h : MStep m1 m2)
    (hinv : m1.InterMediates.length = m1.NReduce) :
    m2.InterMediates.length = m2.NReduce ∧ m2.NReduce = m1.NReduce :=
  match h with
  | MStep.assign _ now _ t heq =>
    have hf := assign_fields m1 now m2 t heq
    ⟨by rw [hf.1, hf.2]; exact hinv, hf.1⟩
  | MStep.complete _ task _ heq =>
    have hf := complete_fields m1 task m2 heq
    ⟨hf.2 hinv, hf.1⟩
  | MStep.sweep _ now =>
    have hf := sweep_fields m1 now
    ⟨by rw [hf.1, hf.2]; exact hinv, hf.1⟩

/-- Claim C7: the constructor builds exactly one Map task and one record
per input file, with dense ids 0 to N-1; the reduce-set construction builds
exactly one Reduce task and one record per intermediate bucket, with dense
ids 0 to R-1, each record carrying its bucket's file list; and every master
step preserves the bucket count, so at the Map-to-Reduce transition the
matrix still has NReduce buckets. -/
theorem C7_dense_ids (files : List String) (R : Nat) (m m1 m2 : Master)
    (hstep : MStep m1 m2) (hinv : m1.InterMediates.length = m1.NReduce) :
    ((MakeMaster files R).TaskMeta.map Prod.fst = List.range files.length ∧
     (MakeMaster files R).TaskQueue.map Task.Id = List.range files.length ∧
     (MakeMaster files R).InterMediates.length = R ∧
     (MakeMaster files R).NReduce = R ∧
     ∀ p ∈ (MakeMaster files R).TaskMeta,
       p.2.TaskPtr.Id = p.1 ∧ p.2.TaskPtr.TaskState = State.Map ∧
         p.2.TaskStatus = MasterTaskState.Idle) ∧
    ((createReduceTask m).TaskMeta.map Prod.fst = List.range m.InterMediates.length ∧
     (createReduceTask m).TaskQueue.map Task.Id =
       m.TaskQueue.map Task.Id ++ List.range m.InterMediates.length ∧
     ∀ p ∈ (createReduceTask m).TaskMeta,
       p.2.TaskPtr.Id = p.1 ∧ p.2.TaskPtr.TaskState = State.Reduce ∧
         p.2.TaskStatus = MasterTaskState.Idle ∧
         p.2.TaskPtr.InterMediates = m.InterMediates.getD p.1 []) ∧
    (m2.InterMediates.length = m2.NReduce ∧ m2.NReduce = m1.NReduce) := by
  refine ⟨⟨?_, ?_, ?_, ?_, ?_⟩, ⟨?_, ?_, ?_⟩, step_preserves_matrix m1 m2 hstep hinv⟩
  · simp [MakeMaster, createMapTask, List.map_map, Function.comp_def,
      List.enum_map_fst]
  · simp [MakeMaster, createMapTask, List.map_map, Function.comp_def,
      List.enum_map_fst]
  · simp [MakeMaster, createMapTask]
  · simp [MakeMaster, createMapTask]
  · intro p hp
    simp only [MakeMaster, createMapTask, List.nil_append, List.map_map,
      List.mem_map] at hp
    obtain ⟨q, _, hq⟩ := hp
    rw [← hq]
    exact ⟨rfl, rfl, rfl⟩
  · simp [createReduceTask, List.map_map, Function.comp_def, List.enum_map_fst]
  · simp [createReduceTask, List.map_map, Function.comp_def, List.enum_map_fst]
  · intro p hp
    simp only [createReduceTask, List.map_map, List.mem_map] at hp
    obtain ⟨q, hqmem, hq⟩ := hp
    rw [← hq]
    refine ⟨rfl, rfl, rfl, ?_⟩
    have : m.InterMediates[q.1]? = some q.2 :=
      List.mk_mem_enum_iff_getElem?.mp (by exact hqmem)
    simp [List.getD_eq_getElem?_getD, this]

theorem C7_witness :
    (MakeMaster ["a"] 1).InterMediates.length = (MakeMaster ["a"] 1).NReduce ∧
      (MakeMaster ["a"] 1).TaskMeta.map Prod.fst = List.range 1 ∧
      (createReduceTask (MakeMaster ["a"] 1)).TaskMeta.map Prod.fst =
        List.range (MakeMaster ["a"] 1).InterMediates.length :=
  ⟨by decide,
    (C7_dense_ids ["a"] 1 (MakeMaster ["a"] 1) (MakeMaster ["a"] 1) (MakeMaster ["a"] 1)
      (MStep.complete (MakeMaster ["a"] 1)
        { Id := 0, Input := "", Output := "", TaskState := State.Wait,
          NReducer := 1, InterMediates := [] }
        (MakeMaster ["a"] 1) (by decide))
      (by decide)).1.1,
    (C7_dense_ids ["a"] 1 (MakeMaster ["a"] 1) (MakeMaster ["a"] 1) (MakeMaster ["a"] 1)
      (MStep.complete (MakeMaster ["a"] 1)
        { Id := 0, Input := "", Output := "", TaskState := State.Wait,
          NReducer := 1, InterMediates := [] }
        (MakeMaster ["a"] 1) (by decide))
      (by decide)).2.1.1⟩

/-! ## Claims about the worker -/

lemma foldl_addToBuffer_length (r : Nat) (pairs : List KeyValue) :
    ∀ buf : List (List KeyValue),
      (pairs.foldl (addToBuffer r) buf).length = buf.length := by
  induction pairs with
  | nil => intro buf; rfl
  | cons kv pairs ih =>
    intro buf
    rw [List.foldl_cons, ih]
    simp [addToBuffer]

lemma partitionBuffer_length (pairs : List KeyValue) (r : Nat) :
    (partitionBuffer pairs r).length = r := by
  rw [partitionBuffer, foldl_addToBuffer_length]
  exact List.length_replicate r []

lemma getD_set_self (l : List (List KeyValue)) (i : Nat) (a : List KeyValue)
    (h : i < l.length) : (l.set i a).getD i [] = a := by
  rw [List.getD_eq_getElem?_getD, List.getElem?_set_self]
  · rfl
  · exact h

lemma getD_set_ne (l : List (List KeyValue)) (i j : Nat) (a : List KeyValue)
    (h : i ≠ j) : (l.set i a).getD j [] = l.getD j [] := by
  rw [List.getD_eq_getElem?_getD, List.getElem?_set_ne h,
    ← List.getD_eq_getElem?_getD]

lemma foldl_addToBuffer_getD (r b : Nat) (hb : b < r) (pairs : List KeyValue) :
    ∀ buf : List (List KeyValue), buf.length = r →
      (pairs.foldl (addToBuffer r) buf).getD b [] =
        buf.getD b [] ++ pairs.filter (fun kv => slot kv.Key r == b) := by
  induction pairs with
  | nil => intro buf _; simp
  | cons kv pairs ih =>
    intro buf hlen
    have hlen' : (addToBuffer r buf kv).length = r := by
      simp [addToBuffer, hlen]
    rw [List.foldl_cons, ih _ hlen', List.filter_cons]
    by_cases hs : slot kv.Key r = b
    · have hset : (addToBuffer r buf kv).getD b [] = buf.getD b [] ++ [kv] := by
        rw [addToBuffer, hs]
        exact getD_set_self buf b _ (hlen ▸ hb)
      rw [hset]
      simp [hs]
    · have hset : (addToBuffer r buf kv).getD b [] = buf.getD b [] := by
        rw [addToBuffer]
        exact getD_set_ne buf _ b _ hs
      rw [hset]
      simp [hs]

lemma partitionBuffer_getD (pairs : List KeyValue) (r b : Nat) (hb : b < r) :
    (partitionBuffer pairs r).getD b [] =
      pairs.filter (fun kv => slot kv.Key r == b) := by
  rw [partitionBuffer,
    foldl_addToBuffer_getD r b hb pairs _ (List.length_replicate r [])]
  rw [List.getD_eq_getElem?_getD, List.getElem?_replicate]
  simp [hb]

lemma mapper_fst_getD (task : Task) (content : String)
    (mapf : String → String → List KeyValue) (dir : String) (b : Nat)
    (hb : b < task.NReducer) :
    (mapper task content mapf dir).1.getD b ⟨"", []⟩ =
      ⟨"mr-" ++ toString task.Id ++ "-" ++ toString b,
       (mapf task.Input content).filter
         (fun kv => slot kv.Key task.NReducer == b)⟩ := by
  show (((List.range task.NReducer).map
      (fun i => writeToLocalFile dir task.Id i
        ((partitionBuffer (mapf task.Input content) task.NReducer).getD i []))).map
        Prod.fst).getD b ⟨"", []⟩ = _
  rw [List.map_map, List.getD_eq_getElem?_getD, List.getElem?_map,
    List.getElem?_range hb]
  simp only [Option.map_some', Option.getD_some, Function.comp_apply]
  rw [partitionBuffer_getD _ _ _ hb]
  rfl

/-- Claim C5: the worker's Map execution puts each pair produced by the
user map function into bucket `ihash(key) mod R`: the file written for
bucket `b` is named `mr-<mapTaskId>-<b>` and contains exactly the pairs
whose key hashes to `b`, in input order, and the reported task carries the
paths of these files, one per bucket in bucket order, as its
intermediates. -/
theorem C5_mapper (task : Task) (content : String)
    (mapf : String → String → List KeyValue) (dir : String) (b : Nat)
    (hb : b < task.NReducer) :
    (mapper task content mapf dir).1.getD b ⟨"", []⟩ =
      ⟨"mr-" ++ toString task.Id ++ "-" ++ toString b,
       (mapf task.Input content).filter
         (fun kv => slot kv.Key task.NReducer == b)⟩ ∧
    (mapper task content mapf dir).2.InterMediates =
      (List.range task.NReducer).map (fun i =>
        pathJoin dir ("mr-" ++ toString task.Id ++ "-" ++ toString i)) ∧
    (mapper task content mapf dir).2.Id = task.Id ∧
    (mapper task content mapf dir).2.TaskState = task.TaskState := by
  refine ⟨mapper_fst_getD task content mapf dir b hb, ?_, rfl, rfl⟩
  show ((List.range task.NReducer).map
      (fun i => writeToLocalFile dir task.Id i
        ((partitionBuffer (mapf task.Input content) task.NReducer).getD i []))).map
        Prod.snd = _
  rw [List.map_map]
  rfl

theorem C5_witness :
    (mapper { Id := 7, Input := "in", Output := "", TaskState := State.Map,
              NReducer := 1, InterMediates := [] } "x"
       (fun _ _ => [⟨"k", "v"⟩]) "").2.InterMediates =
      (List.range 1).map (fun i =>
        pathJoin "" ("mr-" ++ toString (7 : Nat) ++ "-" ++ toString i)) :=
  (C5_mapper _ "x" (fun _ _ => [⟨"k", "v"⟩]) "" 0 (by decide)).2.1

/-- Claim C10: the worker's Map execution writes and reports exactly
`NReducer` intermediate files, named `mr-<mapTaskId>-<b>` for buckets `b =
0` up to `NReducer - 1` in ascending bucket order (for every Map task);
and a bucket that received no pair still gets a file, written empty. -/
theorem C10_one_file_per_bucket (task : Task) (content : String)
    (mapf : String → String → List KeyValue) (dir : String) :
    (mapper task content mapf dir).1.map FileWrite.name =
      (List.range task.NReducer).map (fun i =>
        "mr-" ++ toString task.Id ++ "-" ++ toString i) ∧
    (mapper task content mapf dir).1.length = task.NReducer ∧
    (mapper task content mapf dir).2.InterMediates.length = task.NReducer ∧
    ∀ b, b < task.NReducer →
      (mapf task.Input content).filter
        (fun kv => slot kv.Key task.NReducer == b) = [] →
      ((mapper task content mapf dir).1.getD b ⟨"", []⟩).contents = [] := by
  refine ⟨?_, ?_, ?_, ?_⟩
  · show (((List.range task.NReducer).map
        (fun i => writeToLocalFile dir task.Id i
          ((partitionBuffer (mapf task.Input content) task.NReducer).getD i []))).map
          Prod.fst).map FileWrite.name = _
    rw [List.map_map, List.map_map]
    rfl
  · show (((List.range task.NReducer).map
        (fun i => writeToLocalFile dir task.Id i
          ((partitionBuffer (mapf task.Input content) task.NReducer).getD i []))).map
          Prod.fst).length = _
    simp
  · show (((List.range task.NReducer).map
        (fun i => writeToLocalFile dir task.Id i
          ((partitionBuffer (mapf task.Input content) task.NReducer).getD i []))).map
          Prod.snd).length = _
    simp
  · intro b hb hempty
    rw [mapper_fst_getD task content mapf dir b hb]
    exact hempty

theorem C10_witness :
    (mapper { Id := 3, Input := "in", Output := "", TaskState := State.Map,
              NReducer := 2, InterMediates := [] } "x"
       (fun _ _ => [⟨"k", "v"⟩]) "").1.map FileWrite.name =
      (List.range 2).map (fun i =>
        "mr-" ++ toString (3 : Nat) ++ "-" ++ toString i) ∧
    ((mapper { Id := 3, Input := "in", Output := "", TaskState := State.Map,
               NReducer := 2, InterMediates := [] } "x"
        (fun _ _ => [⟨"k", "v"⟩]) "").1.getD 1 ⟨"", []⟩).contents = [] :=
  ⟨(C10_one_file_per_bucket
      { Id := 3, Input := "in", Output := "", TaskState := State.Map,
        NReducer := 2, InterMediates := [] } "x" (fun _ _ => [⟨"k", "v"⟩]) "").1,
   (C10_one_file_per_bucket
      { Id := 3, Input := "in", Output := "", TaskState := State.Map,
        NReducer := 2, InterMediates := [] } "x" (fun _ _ => [⟨"k", "v"⟩]) "").2.2.2
     1 (by decide) (by decide)⟩

/-- Claim C8: partitioning is deterministic across executions: if the same
pair lands in bucket `b1` of one Map execution and in bucket `b2` of
another (same or different task) with the same reducer count, then `b1 =
b2`, and the bucket is the hash of the key modulo the reducer count, a
function of the key and the reducer count alone. -/
theorem C8_deterministic_partition (t1 t2 : Task) (c1 c2 : String)
    (f1 f2 : String → String → List KeyValue) (d1 d2 : String)
    (kv : KeyValue) (b1 b2 : Nat) (hR : t1.NReducer = t2.NReducer)
    (hb1 : b1 < t1.NReducer) (hb2 : b2 < t2.NReducer)
    (h1 : kv ∈ ((mapper t1 c1 f1 d1).1.getD b1 ⟨"", []⟩).contents)
    (h2 : kv ∈ ((mapper t2 c2 f2 d2).1.getD b2 ⟨"", []⟩).contents) :
    b1 = b2 ∧ b1 = slot kv.Key t1.NReducer := by
  rw [mapper_fst_getD t1 c1 f1 d1 b1 hb1] at h1
  rw [mapper_fst_getD t2 c2 f2 d2 b2 hb2] at h2
  have hs1 : slot kv.Key t1.NReducer = b1 := by
    have := (List.mem_filter.mp h1).2
    simpa using this
  have hs2 : slot kv.Key t2.NReducer = b2 := by
    have := (List.mem_filter.mp h2).2
    simpa using this
  rw [hR] at hs1
  exact ⟨hs1.symm.trans hs2, by rw [← hs1, hR]⟩

theorem C8_witness :
    (0 : Nat) = 0 ∧ (0 : Nat) = slot "k" 1 :=
  C8_deterministic_partition
    { Id := 1, Input := "", Output := "", TaskState := State.Map,
      NReducer := 1, InterMediates := [] }
    { Id := 2, Input := "", Output := "", TaskState := State.Map,
      NReducer := 1, InterMediates := [] }
    "c1" "c2" (fun _ _ => [⟨"k", "v"⟩]) (fun _ _ => [⟨"k", "w"⟩, ⟨"k", "v"⟩])
    "" "" ⟨"k", "v"⟩ 0 0 rfl (by decide) (by decide) (by decide) (by decide)

lemma mem_runKeys_iff : ∀ (l : List KeyValue) (k : String),
    k ∈ runKeys l ↔ k ∈ l.map KeyValue.Key := by
  intro l
  induction l using runKeys.induct with
  | case1 => intro k; simp [runKeys]
  | case2 kv rest ih =>
    intro k
    simp only [runKeys, List.map_cons]
    constructor
    · intro h
      rcases List.mem_cons.mp h with h | h
      · exact List.mem_cons.mpr (Or.inl h)
      · obtain ⟨x, hx, hk⟩ := List.mem_map.mp ((ih k).mp h)
        have hxrest : x ∈ rest := (List.dropWhile_sublist _).subset hx
        exact List.mem_cons.mpr (Or.inr (List.mem_map.mpr ⟨x, hxrest, hk⟩))
    · intro h
      rcases List.mem_cons.mp h with h | h
      · exact List.mem_cons.mpr (Or.inl h)
      · obtain ⟨x, hx, hk⟩ := List.mem_map.mp h
        have hsplit : x ∈ rest.takeWhile (keyEq kv.Key) ++
            rest.dropWhile (keyEq kv.Key) := by
          rw [List.takeWhile_append_dropWhile]
          exact hx
        rcases List.mem_append.mp hsplit with hx1 | hx2
        · have hxeq := List.mem_takeWhile_imp hx1
          have hxkv : x.Key = kv.Key := by simpa [keyEq] using hxeq
          exact List.mem_cons.mpr (Or.inl (by rw [← hk, hxkv]))
        · exact List.mem_cons.mpr
            (Or.inr ((ih k).mpr (List.mem_map.mpr ⟨x, hx2, hk⟩)))

lemma dropWhile_keys_gt (kv : KeyValue) :
    ∀ rest : List KeyValue, (∀ x ∈ rest, keyLE kv x) → List.Sorted keyLE rest →
      ∀ x ∈ rest.dropWhile (keyEq kv.Key), kv.Key < x.Key := by
  intro rest
  induction rest with
  | nil => intro _ _ x hx; simp at hx
  | cons a rest2 ih =>
    intro hb hs x hx
    by_cases hpa : keyEq kv.Key a = true
    · rw [List.dropWhile_cons_of_pos hpa] at hx
      exact ih (fun y hy => hb y (List.mem_cons_of_mem a hy))
        (List.sorted_cons.mp hs).2 x hx
    · rw [List.dropWhile_cons_of_neg hpa] at hx
      have hka : kv.Key < a.Key := by
        have hle : kv.Key ≤ a.Key := hb a (List.mem_cons_self a rest2)
        have hne : a.Key ≠ kv.Key := by simpa [keyEq] using hpa
        exact lt_of_le_of_ne hle (Ne.symm hne)
      rcases List.mem_cons.mp hx with rfl | hx2
      · exact hka
      · exact lt_of_lt_of_le hka ((List.sorted_cons.mp hs).1 x hx2)

lemma takeWhile_eq_filter_sorted (kv : KeyValue) :
    ∀ rest : List KeyValue, (∀ x ∈ rest, keyLE kv x) → List.Sorted keyLE rest →
      rest.takeWhile (keyEq kv.Key) = rest.filter (keyEq kv.Key) := by
  intro rest
  induction rest with
  | nil => intro _ _; rfl
  | cons a rest2 ih =>
    intro hb hs
    by_cases hpa : keyEq kv.Key a = true
    · rw [List.takeWhile_cons_of_pos hpa, List.filter_cons_of_pos hpa,
        ih (fun y hy => hb y (List.mem_cons_of_mem a hy)) (List.sorted_cons.mp hs).2]
    · rw [List.takeWhile_cons_of_neg hpa, List.filter_cons_of_neg hpa]
      symm
      apply List.filter_eq_nil_iff.mpr
      intro x hx
      have hka : kv.Key < a.Key := by
        have hle : kv.Key ≤ a.Key := hb a (List.mem_cons_self a rest2)
        have hne : a.Key ≠ kv.Key := by simpa [keyEq] using hpa
        exact lt_of_le_of_ne hle (Ne.symm hne)
      have hkx : kv.Key < x.Key :=
        lt_of_lt_of_le hka ((List.sorted_cons.mp hs).1 x hx)
      simp only [keyEq, beq_iff_eq]
      exact fun hc => absurd (hc ▸ hkx) (lt_irrefl _)

lemma filter_key_drop (kv : KeyValue) (rest : List KeyValue) (k : String)
    (hk : kv.Key < k) :
    (kv :: rest).filter (keyEq k) =
      (rest.dropWhile (keyEq kv.Key)).filter (keyEq k) := by
  have hne : keyEq k kv = false := by
    simp only [keyEq, beq_eq_false_iff_ne, ne_eq]
    exact fun hc => absurd (hc ▸ hk) (lt_irrefl _)
  rw [List.filter_cons_of_neg (by simp [hne])]
  conv_lhs => rw [← List.takeWhile_append_dropWhile (keyEq kv.Key) rest]
  rw [List.filter_append]
  have htake : (rest.takeWhile (keyEq kv.Key)).filter (keyEq k) = [] := by
    apply List.filter_eq_nil_iff.mpr
    intro x hx
    have hxkv : x.Key = kv.Key := by
      simpa [keyEq] using List.mem_takeWhile_imp hx
    simp only [keyEq, beq_iff_eq, hxkv]
    exact fun hc => absurd (hc ▸ hk) (lt_irrefl _)
  rw [htake, List.nil_append]

lemma reduceGroups_sorted (f : String → List String → String) :
    ∀ l : List KeyValue, List.Sorted keyLE l →
      reduceGroups f l = (runKeys l).map (fun k =>
        k ++ " " ++ f k ((l.filter (keyEq k)).map KeyValue.Value) ++ "\n") := by
  intro l
  induction l using runKeys.induct with
  | case1 => intro _; simp [reduceGroups, runKeys]
  | case2 kv rest ih =>
    intro hs
    obtain ⟨hb, hs2⟩ := List.sorted_cons.mp hs
    simp only [reduceGroups, runKeys, List.map_cons]
    have hhead : (kv :: rest).filter (keyEq kv.Key) =
        kv :: rest.filter (keyEq kv.Key) :=
      List.filter_cons_of_pos (by simp [keyEq])
    rw [hhead, List.map_cons, ← takeWhile_eq_filter_sorted kv rest hb hs2,
      ih (hs2.sublist (List.dropWhile_sublist _))]
    congr 1
    apply List.map_congr_left
    intro k hkmem
    obtain ⟨x, hx, hxk⟩ := List.mem_map.mp ((mem_runKeys_iff _ k).mp hkmem)
    have hklt : kv.Key < k := hxk ▸ dropWhile_keys_gt kv rest hb hs2 x hx
    rw [filter_key_drop kv rest k hklt]

lemma runKeys_chain : ∀ l : List KeyValue, List.Sorted keyLE l →
    List.Chain' (· < ·) (runKeys l) := by
  intro l
  induction l using runKeys.induct with
  | case1 => intro _; simp [runKeys]
  | case2 kv rest ih =>
    intro hs
    obtain ⟨hb, hs2⟩ := List.sorted_cons.mp hs
    simp only [runKeys]
    rw [List.chain'_cons']
    refine ⟨?_, ih (hs2.sublist (List.dropWhile_sublist _))⟩
    intro y hy
    cases hrest : rest.dropWhile (keyEq kv.Key) with
    | nil => rw [hrest] at hy; simp [runKeys] at hy
    | cons d rest2 =>
      rw [hrest] at hy
      simp only [runKeys, List.head?_cons, Option.mem_def, Option.some.injEq] at hy
      have hd : d ∈ rest.dropWhile (keyEq kv.Key) := by
        rw [hrest]
        exact List.mem_cons_self d rest2
      have hlt := dropWhile_keys_gt kv rest hb hs2 d hd
      exact hy ▸ hlt

/-- Claim C6: the worker's Reduce execution outputs the file named
`mr-out-<reduceTaskId>` whose contents are one line of the form
`"<key> <value>\n"` per distinct key of the concatenated intermediate
input, with lines in strictly increasing key order, each value being one
invocation of the user reduce function on that key's full value list (a
permutation of all values carried by that key across the concatenated
input). -/
theorem C6_reducer (task : Task) (fs : String → List KeyValue)
    (reducef : String → List String → String) :
    (reducer task fs reducef).1.1 = "mr-out-" ++ toString task.Id ∧
    (reducer task fs reducef).2.Output = "mr-out-" ++ toString task.Id ∧
    (reducer task fs reducef).1.2 =
      String.join ((runKeys (List.insertionSort keyLE
          (readFromLocalFile fs task.InterMediates))).map (fun k =>
        k ++ " " ++
          reducef k (((List.insertionSort keyLE
              (readFromLocalFile fs task.InterMediates)).filter
            (keyEq k)).map KeyValue.Value) ++ "\n")) ∧
    List.Chain' (· < ·) (runKeys (List.insertionSort keyLE
      (readFromLocalFile fs task.InterMediates))) ∧
    (∀ k, k ∈ runKeys (List.insertionSort keyLE
        (readFromLocalFile fs task.InterMediates)) ↔
      k ∈ (readFromLocalFile fs task.InterMediates).map KeyValue.Key) ∧
    (∀ k, (((List.insertionSort keyLE
          (readFromLocalFile fs task.InterMediates)).filter
        (keyEq k)).map KeyValue.Value).Perm
      (((readFromLocalFile fs task.InterMediates).filter
        (keyEq k)).map KeyValue.Value)) := by
  have hsorted : List.Sorted keyLE (List.insertionSort keyLE
      (readFromLocalFile fs task.InterMediates)) :=
    List.sorted_insertionSort keyLE (readFromLocalFile fs task.InterMediates)
  have hperm := List.perm_insertionSort keyLE
    (readFromLocalFile fs task.InterMediates)
  refine ⟨rfl, rfl, ?_, runKeys_chain _ hsorted, ?_, ?_⟩
  · show String.join (reduceGroups reducef _) = _
    rw [reduceGroups_sorted reducef _ hsorted]
  · intro k
    rw [mem_runKeys_iff]
    exact (hperm.map KeyValue.Key).mem_iff
  · intro k
    exact (hperm.filter (keyEq k)).map KeyValue.Value

theorem C6_witness :
    (reducer { Id := 4, Input := "", Output := "", TaskState := State.Reduce,
               NReducer := 1, InterMediates := ["f1", "f2"] }
       (fun p => if p = "f1" then [⟨"b", "1"⟩, ⟨"a", "2"⟩] else [⟨"a", "3"⟩])
       (fun _ vs => toString vs.length)).1.1 = "mr-out-" ++ toString (4 : Nat) ∧
    (((List.insertionSort keyLE (readFromLocalFile
          (fun p => if p = "f1" then [⟨"b", "1"⟩, ⟨"a", "2"⟩] else [⟨"a", "3"⟩])
          ["f1", "f2"])).filter (keyEq "a")).map KeyValue.Value).Perm
      (((readFromLocalFile
          (fun p => if p = "f1" then [⟨"b", "1"⟩, ⟨"a", "2"⟩] else [⟨"a", "3"⟩])
          ["f1", "f2"]).filter (keyEq "a")).map KeyValue.Value) :=
  ⟨(C6_reducer
      { Id := 4, Input := "", Output := "", TaskState := State.Reduce,
        NReducer := 1, InterMediates := ["f1", "f2"] }
      (fun p => if p = "f1" then [⟨"b", "1"⟩, ⟨"a", "2"⟩] else [⟨"a", "3"⟩])
      (fun _ vs => toString vs.length)).1,
   (C6_reducer
      { Id := 4, Input := "", Output := "", TaskState := State.Reduce,
        NReducer := 1, InterMediates := ["f1", "f2"] }
      (fun p => if p = "f1" then [⟨"b", "1"⟩, ⟨"a", "2"⟩] else [⟨"a", "3"⟩])
      (fun _ vs => toString vs.length)).2.2.2.2.2 "a"⟩

end MR
